import Mathlib

/-!
# Verification of the polynomial-multiplication kernel

A shallow embedding of `src/hw4_mult_polynomials/src/polynomial.rs`.

Coefficients are modelled as exact rationals (`ℚ`): the source stores `f64`
values, and every property checked here (control flow, which indices are read
and written, the algebraic identities claimed of the interpolation step) is a
property of the arithmetic expressions themselves; `ℚ` realises those
expressions exactly.  The `rand`-based sampling in `Polynomial::random` is
modelled by an explicit sampling oracle `sample : ℕ → ℚ`, and the two
`assert!` statements (which abort the process in Rust) are modelled by an
`Option` result, `none` standing for the panic.

Imperative loops are rendered as `List.foldl` over `List.range`, with
`result[i] += v` becoming `List.set i (getD i + v)`; `Vec` reads `x[i]` on
indices that the source guards to be in bounds become `List.getD i 0`
(out-of-range reads never occur in the source, and `getD` agrees with the
source's reads on every index actually used).
-/

namespace PolyMult

/-- The normalization tolerance `1e-12` from `Polynomial::new`. -/
def eps : ℚ := 1 / 10 ^ 12

/-- The `while result.len() > 0 && result.last().abs() < 1e-12 { result.pop() }`
loop of `Polynomial::new`: remove trailing coefficients of magnitude below
`eps`, rendered functionally as dropping the longest small prefix of the
reversed list. -/
def stripTrailing (coeffs : List ℚ) : List ℚ :=
  (coeffs.reverse.dropWhile (fun x => |x| < eps)).reverse

/-- `Polynomial` (polynomial.rs, lines 4-8): coefficients from lowest to
highest degree. -/
structure Polynomial where
  coeffs : List ℚ
  deriving DecidableEq

/-- `Polynomial::new` (lines 12-19): construct and strip trailing
near-zero coefficients. -/
def Polynomial.new (coeffs : List ℚ) : Polynomial :=
  ⟨stripTrailing coeffs⟩

/-- `Polynomial::random` (lines 31-40).  The two `assert!`s are modelled by
`none` (process abort); the RNG by the oracle `sample`. -/
def Polynomial.random (range_min range_max : ℚ) (size : ℕ) (sample : ℕ → ℚ) :
    Option Polynomial :=
  if 0 < size then
    if range_min < range_max then
      some (Polynomial.new ((List.range size).map sample))
    else none
  else none

/-- `Polynomial::degree` (lines 43-49). -/
def Polynomial.degree (p : Polynomial) : ℕ :=
  if p.coeffs.isEmpty then 0 else p.coeffs.length - 1

/-- `naive_multiply_impl` (lines 90-107): the O(n·m) direct convolution. -/
def naive_multiply_impl (a b : List ℚ) : List ℚ :=
  if a.length = 0 ∨ b.length = 0 then []
  else
    (List.range a.length).foldl (fun result i =>
        (List.range b.length).foldl (fun result j =>
            result.set (i + j) (result.getD (i + j) 0 + a.getD i 0 * b.getD j 0))
          result)
      (List.replicate (a.length + b.length - 1) 0)

/-- One zero-padded chunk (lines 124-155): a vector of length `csize` whose
`i`-th entry is `v[off + i]` when `i < csize.min (v.length - off)` (the
loop bound in the source, with `-` the saturating subtraction) and the `0.0`
padding otherwise. -/
def chunkOf (v : List ℚ) (csize off : ℕ) : List ℚ :=
  (List.range csize).map (fun i =>
    if i < min csize (v.length - off) then v.getD (off + i) 0 else 0)

/-- Evaluation at the point 1 (lines 171/175): `x0[i] + x1[i] + x2[i]`. -/
def evalAt1 (x0 x1 x2 : List ℚ) (csize : ℕ) : List ℚ :=
  (List.range csize).map (fun i => x0.getD i 0 + x1.getD i 0 + x2.getD i 0)

/-- Evaluation at the point −1 (lines 172/176): `x0[i] - x1[i] + x2[i]`. -/
def evalAtNeg1 (x0 x1 x2 : List ℚ) (csize : ℕ) : List ℚ :=
  (List.range csize).map (fun i => x0.getD i 0 - x1.getD i 0 + x2.getD i 0)

/-- Evaluation at the point 2 (lines 173/177): `x0[i] + 2*x1[i] + 4*x2[i]`. -/
def evalAt2 (x0 x1 x2 : List ℚ) (csize : ℕ) : List ℚ :=
  (List.range csize).map (fun i => x0.getD i 0 + 2 * x1.getD i 0 + 4 * x2.getD i 0)

/-- Evaluation at the point −2 (lines 174/178): `x0[i] - 2*x1[i] + 4*x2[i]`. -/
def evalAtNeg2 (x0 x1 x2 : List ℚ) (csize : ℕ) : List ℚ :=
  (List.range csize).map (fun i => x0.getD i 0 - 2 * x1.getD i 0 + 4 * x2.getD i 0)

/-- `let c0 = v0` (line 212). -/
def interpC0 (v0 : ℚ) : ℚ := v0

/-- `let c1 = (v1 - v2) / 2.0 - (v3 - v4) / 12.0 - v0` (line 213). -/
def interpC1 (v0 v1 v2 v3 v4 : ℚ) : ℚ := (v1 - v2) / 2 - (v3 - v4) / 12 - v0

/-- `let c2 = (v1 + v2) / 2.0 - v0 - (v3 + v4) / 6.0` (line 214). -/
def interpC2 (v0 v1 v2 v3 v4 : ℚ) : ℚ := (v1 + v2) / 2 - v0 - (v3 + v4) / 6

/-- `let c3 = (v3 - v4) / 6.0 - (v1 - v2) / 6.0` (line 215). -/
def interpC3 (v1 v2 v3 v4 : ℚ) : ℚ := (v3 - v4) / 6 - (v1 - v2) / 6

/-- `let c4 = (v3 + v4) / 24.0 - (v1 + v2) / 24.0 + v0 / 24.0` (line 216). -/
def interpC4 (v0 v1 v2 v3 v4 : ℚ) : ℚ := (v3 + v4) / 24 - (v1 + v2) / 24 + v0 / 24

/-- The `add_to_result` closure (lines 191-195): add `val` at `pos`, silently
dropping positions at or beyond `result_len`. -/
def addTo (result_len : ℕ) (result : List ℚ) (pos : ℕ) (val : ℚ) : List ℚ :=
  if pos < result_len then result.set pos (result.getD pos 0 + val) else result

/-- The interpolation/overlap-add loop (lines 188-225): for every index `i`
below the longest intermediate product, combine `p0[i]..p4[i]` through the
closed-form coefficients and add them at offsets `0, n_chunk, …, 4*n_chunk`. -/
def recombine (n_chunk result_len : ℕ) (p0 p1 p2 p3 p4 : List ℚ) : List ℚ :=
  (List.range ((((p0.length.max p1.length).max p2.length).max p3.length).max p4.length)).foldl
    (fun result i =>
      let v0 := p0.getD i 0
      let v1 := p1.getD i 0
      let v2 := p2.getD i 0
      let v3 := p3.getD i 0
      let v4 := p4.getD i 0
      let result := addTo result_len result i (interpC0 v0)
      let result := addTo result_len result (i + n_chunk) (interpC1 v0 v1 v2 v3 v4)
      let result := addTo result_len result (i + 2 * n_chunk) (interpC2 v0 v1 v2 v3 v4)
      let result := addTo result_len result (i + 3 * n_chunk) (interpC3 v1 v2 v3 v4)
      addTo result_len result (i + 4 * n_chunk) (interpC4 v0 v1 v2 v3 v4))
    (List.replicate result_len 0)

@[simp] theorem chunkOf_length (v : List ℚ) (csize off : ℕ) :
    (chunkOf v csize off).length = csize := by
  simp [chunkOf]

@[simp] theorem evalAt1_length (x0 x1 x2 : List ℚ) (csize : ℕ) :
    (evalAt1 x0 x1 x2 csize).length = csize := by
  simp [evalAt1]

@[simp] theorem evalAtNeg1_length (x0 x1 x2 : List ℚ) (csize : ℕ) :
    (evalAtNeg1 x0 x1 x2 csize).length = csize := by
  simp [evalAtNeg1]

@[simp] theorem evalAt2_length (x0 x1 x2 : List ℚ) (csize : ℕ) :
    (evalAt2 x0 x1 x2 csize).length = csize := by
  simp [evalAt2]

@[simp] theorem evalAtNeg2_length (x0 x1 x2 : List ℚ) (csize : ℕ) :
    (evalAtNeg2 x0 x1 x2 csize).length = csize := by
  simp [evalAtNeg2]

/-- `thresholded_multiply_impl` (lines 110-226).  The threshold is clamped to
at least 5 (line 113); below the clamped threshold the direct convolution is
used (lines 116-118); otherwise both operands are split into three chunks of
size `⌈n/3⌉` driven by `a`'s length (line 121), evaluated at the five points
`0, 1, −1, 2, −2`, multiplied recursively, and recombined. -/
def thresholded_multiply_impl (a b : List ℚ) (threshold : ℕ) : List ℚ :=
  if h : a.length < max threshold 5 ∨ b.length < max threshold 5 then
    naive_multiply_impl a b
  else
    let n_chunk := (a.length + 2) / 3
    let a0 := chunkOf a n_chunk 0
    let a1 := chunkOf a n_chunk n_chunk
    let a2 := chunkOf a n_chunk (2 * n_chunk)
    let b0 := chunkOf b n_chunk 0
    let b1 := chunkOf b n_chunk n_chunk
    let b2 := chunkOf b n_chunk (2 * n_chunk)
    let p0 := thresholded_multiply_impl a0 b0 (max threshold 5)
    let p1 := thresholded_multiply_impl (evalAt1 a0 a1 a2 n_chunk)
      (evalAt1 b0 b1 b2 n_chunk) (max threshold 5)
    let p2 := thresholded_multiply_impl (evalAtNeg1 a0 a1 a2 n_chunk)
      (evalAtNeg1 b0 b1 b2 n_chunk) (max threshold 5)
    let p3 := thresholded_multiply_impl (evalAt2 a0 a1 a2 n_chunk)
      (evalAt2 b0 b1 b2 n_chunk) (max threshold 5)
    let p4 := thresholded_multiply_impl (evalAtNeg2 a0 a1 a2 n_chunk)
      (evalAtNeg2 b0 b1 b2 n_chunk) (max threshold 5)
    recombine n_chunk (a.length + b.length - 1) p0 p1 p2 p3 p4
termination_by a.length
decreasing_by
  all_goals simp only [chunkOf_length, evalAt1_length, evalAtNeg1_length,
    evalAt2_length, evalAtNeg2_length]
  all_goals omega

/-- `cook_tooms_k3_impl` (lines 85-87). -/
def cook_tooms_k3_impl (a b : List ℚ) : List ℚ :=
  thresholded_multiply_impl a b 5

/-- `Polynomial::multiply_naive` (lines 65-67). -/
def Polynomial.multiply_naive (p other : Polynomial) : Polynomial :=
  Polynomial.new (naive_multiply_impl p.coeffs other.coeffs)

/-- `Polynomial::multiply_cook_tooms_k3` (lines 70-72). -/
def Polynomial.multiply_cook_tooms_k3 (p other : Polynomial) : Polynomial :=
  Polynomial.new (cook_tooms_k3_impl p.coeffs other.coeffs)

/-- `Polynomial::multiply_thresholded` (lines 75-81). -/
def Polynomial.multiply_thresholded (p other : Polynomial) (threshold : ℕ) : Polynomial :=
  Polynomial.new (thresholded_multiply_impl p.coeffs other.coeffs threshold)

/-- The normalization invariant of the data model: no trailing coefficient of
magnitude below `eps`. -/
def trimmed (l : List ℚ) : Prop :=
  ∀ x ∈ l.getLast?, eps ≤ |x|


/-! ## Unfolding lemmas for the recursive kernel -/

theorem thresh_base (a b : List ℚ) (t : ℕ)
    (h : a.length < max t 5 ∨ b.length < max t 5) :
    thresholded_multiply_impl a b t = naive_multiply_impl a b := by
  rw [thresholded_multiply_impl.eq_def]
  exact dif_pos h

theorem thresh_step (a b : List ℚ) (t : ℕ)
    (h : ¬(a.length < max t 5 ∨ b.length < max t 5)) :
    thresholded_multiply_impl a b t =
      recombine ((a.length + 2) / 3) (a.length + b.length - 1)
        (thresholded_multiply_impl (chunkOf a ((a.length + 2) / 3) 0)
          (chunkOf b ((a.length + 2) / 3) 0) (max t 5))
        (thresholded_multiply_impl
          (evalAt1 (chunkOf a ((a.length + 2) / 3) 0)
            (chunkOf a ((a.length + 2) / 3) ((a.length + 2) / 3))
            (chunkOf a ((a.length + 2) / 3) (2 * ((a.length + 2) / 3))) ((a.length + 2) / 3))
          (evalAt1 (chunkOf b ((a.length + 2) / 3) 0)
            (chunkOf b ((a.length + 2) / 3) ((a.length + 2) / 3))
            (chunkOf b ((a.length + 2) / 3) (2 * ((a.length + 2) / 3))) ((a.length + 2) / 3))
          (max t 5))
        (thresholded_multiply_impl
          (evalAtNeg1 (chunkOf a ((a.length + 2) / 3) 0)
            (chunkOf a ((a.length + 2) / 3) ((a.length + 2) / 3))
            (chunkOf a ((a.length + 2) / 3) (2 * ((a.length + 2) / 3))) ((a.length + 2) / 3))
          (evalAtNeg1 (chunkOf b ((a.length + 2) / 3) 0)
            (chunkOf b ((a.length + 2) / 3) ((a.length + 2) / 3))
            (chunkOf b ((a.length + 2) / 3) (2 * ((a.length + 2) / 3))) ((a.length + 2) / 3))
          (max t 5))
        (thresholded_multiply_impl
          (evalAt2 (chunkOf a ((a.length + 2) / 3) 0)
            (chunkOf a ((a.length + 2) / 3) ((a.length + 2) / 3))
            (chunkOf a ((a.length + 2) / 3) (2 * ((a.length + 2) / 3))) ((a.length + 2) / 3))
          (evalAt2 (chunkOf b ((a.length + 2) / 3) 0)
            (chunkOf b ((a.length + 2) / 3) ((a.length + 2) / 3))
            (chunkOf b ((a.length + 2) / 3) (2 * ((a.length + 2) / 3))) ((a.length + 2) / 3))
          (max t 5))
        (thresholded_multiply_impl
          (evalAtNeg2 (chunkOf a ((a.length + 2) / 3) 0)
            (chunkOf a ((a.length + 2) / 3) ((a.length + 2) / 3))
            (chunkOf a ((a.length + 2) / 3) (2 * ((a.length + 2) / 3))) ((a.length + 2) / 3))
          (evalAtNeg2 (chunkOf b ((a.length + 2) / 3) 0)
            (chunkOf b ((a.length + 2) / 3) ((a.length + 2) / 3))
            (chunkOf b ((a.length + 2) / 3) (2 * ((a.length + 2) / 3))) ((a.length + 2) / 3))
          (max t 5)) := by
  rw [thresholded_multiply_impl.eq_def, dif_neg h]

theorem max5_absorb (t : ℕ) : max (max t 5) 5 = max t 5 := by omega

theorem thresh_unfold_base (a b : List ℚ) (t : ℕ)
    (h : ¬(a.length < max t 5 ∨ b.length < max t 5))
    (hc : (a.length + 2) / 3 < max t 5) :
    thresholded_multiply_impl a b t =
      recombine ((a.length + 2) / 3) (a.length + b.length - 1)
        (naive_multiply_impl (chunkOf a ((a.length + 2) / 3) 0)
          (chunkOf b ((a.length + 2) / 3) 0))
        (naive_multiply_impl
          (evalAt1 (chunkOf a ((a.length + 2) / 3) 0)
            (chunkOf a ((a.length + 2) / 3) ((a.length + 2) / 3))
            (chunkOf a ((a.length + 2) / 3) (2 * ((a.length + 2) / 3))) ((a.length + 2) / 3))
          (evalAt1 (chunkOf b ((a.length + 2) / 3) 0)
            (chunkOf b ((a.length + 2) / 3) ((a.length + 2) / 3))
            (chunkOf b ((a.length + 2) / 3) (2 * ((a.length + 2) / 3))) ((a.length + 2) / 3)))
        (naive_multiply_impl
          (evalAtNeg1 (chunkOf a ((a.length + 2) / 3) 0)
            (chunkOf a ((a.length + 2) / 3) ((a.length + 2) / 3))
            (chunkOf a ((a.length + 2) / 3) (2 * ((a.length + 2) / 3))) ((a.length + 2) / 3))
          (evalAtNeg1 (chunkOf b ((a.length + 2) / 3) 0)
            (chunkOf b ((a.length + 2) / 3) ((a.length + 2) / 3))
            (chunkOf b ((a.length + 2) / 3) (2 * ((a.length + 2) / 3))) ((a.length + 2) / 3)))
        (naive_multiply_impl
          (evalAt2 (chunkOf a ((a.length + 2) / 3) 0)
            (chunkOf a ((a.length + 2) / 3) ((a.length + 2) / 3))
            (chunkOf a ((a.length + 2) / 3) (2 * ((a.length + 2) / 3))) ((a.length + 2) / 3))
          (evalAt2 (chunkOf b ((a.length + 2) / 3) 0)
            (chunkOf b ((a.length + 2) / 3) ((a.length + 2) / 3))
            (chunkOf b ((a.length + 2) / 3) (2 * ((a.length + 2) / 3))) ((a.length + 2) / 3)))
        (naive_multiply_impl
          (evalAtNeg2 (chunkOf a ((a.length + 2) / 3) 0)
            (chunkOf a ((a.length + 2) / 3) ((a.length + 2) / 3))
            (chunkOf a ((a.length + 2) / 3) (2 * ((a.length + 2) / 3))) ((a.length + 2) / 3))
          (evalAtNeg2 (chunkOf b ((a.length + 2) / 3) 0)
            (chunkOf b ((a.length + 2) / 3) ((a.length + 2) / 3))
            (chunkOf b ((a.length + 2) / 3) (2 * ((a.length + 2) / 3))) ((a.length + 2) / 3))) := by
  rw [thresh_step a b t h]
  rw [thresh_base _ _ _ (Or.inl (by simp only [chunkOf_length, max5_absorb]; exact hc))]
  rw [thresh_base _ _ _ (Or.inl (by simp only [evalAt1_length, max5_absorb]; exact hc))]
  rw [thresh_base _ _ _ (Or.inl (by simp only [evalAtNeg1_length, max5_absorb]; exact hc))]
  rw [thresh_base _ _ _ (Or.inl (by simp only [evalAt2_length, max5_absorb]; exact hc))]
  rw [thresh_base _ _ _ (Or.inl (by simp only [evalAtNeg2_length, max5_absorb]; exact hc))]

theorem thresh_congr (a b : List ℚ) (t₁ t₂ : ℕ) (h : max t₁ 5 = max t₂ 5) :
    thresholded_multiply_impl a b t₁ = thresholded_multiply_impl a b t₂ := by
  conv_lhs => rw [thresholded_multiply_impl.eq_def]
  conv_rhs => rw [thresholded_multiply_impl.eq_def]
  simp only [h]



/-! ## Pointwise characterization of the imperative accumulation loops -/

theorem getD_set_add (r : List ℚ) (p k : ℕ) (v : ℚ) (hk : k < r.length) :
    (r.set p (r.getD p 0 + v)).getD k 0 = r.getD k 0 + if p = k then v else 0 := by
  by_cases h : p = k
  · subst h
    rw [if_pos rfl,
      List.getD_eq_getElem _ _ (show p < (r.set p (r.getD p 0 + v)).length by simpa using hk)]
    rw [List.getElem_set_self]
  · rw [if_neg h, add_zero,
      List.getD_eq_getElem _ _ (show k < (r.set p (r.getD p 0 + v)).length by simpa using hk),
      List.getD_eq_getElem _ _ hk]
    exact List.getElem_set_ne h _

theorem addTo_getD (L : ℕ) (r : List ℚ) (p k : ℕ) (v : ℚ) (hr : r.length = L) (hk : k < L) :
    (addTo L r p v).getD k 0 = r.getD k 0 + if p = k then v else 0 := by
  unfold addTo
  split
  · exact getD_set_add r p k v (by omega)
  · next hp =>
      rw [if_neg (by intro heq; omega), add_zero]

theorem addTo_length (L : ℕ) (r : List ℚ) (p : ℕ) (v : ℚ) :
    (addTo L r p v).length = r.length := by
  unfold addTo
  split <;> simp

theorem foldl_update_length (L : ℕ) (f : List ℚ → ℕ → List ℚ)
    (hf : ∀ r i, r.length = L → (f r i).length = L) :
    ∀ (l : List ℕ) (res : List ℚ), res.length = L → (l.foldl f res).length = L := by
  intro l
  induction l with
  | nil => intro res h; exact h
  | cons i l ih => intro res h; exact ih (f res i) (hf res i h)

theorem foldl_update_getD (L : ℕ) (f : List ℚ → ℕ → List ℚ) (g : ℕ → ℕ → ℚ)
    (hlen : ∀ r i, r.length = L → (f r i).length = L)
    (hget : ∀ r i k, r.length = L → k < L → (f r i).getD k 0 = r.getD k 0 + g i k) :
    ∀ (l : List ℕ) (res : List ℚ), res.length = L → ∀ k, k < L →
      (l.foldl f res).getD k 0 = res.getD k 0 + (l.map (fun i => g i k)).sum := by
  intro l
  induction l with
  | nil => intro res hres k hk; simp
  | cons i l ih =>
      intro res hres k hk
      simp only [List.foldl_cons, List.map_cons, List.sum_cons]
      rw [ih (f res i) (hlen res i hres) k hk, hget res i k hres hk]
      ring

theorem sum_map_range (f : ℕ → ℚ) (n : ℕ) :
    ((List.range n).map f).sum = ∑ i in Finset.range n, f i := by
  induction n with
  | zero => simp
  | succ n ih =>
      rw [List.range_succ, List.map_append, List.sum_append, Finset.sum_range_succ, ih]
      simp

/-! ## The direct convolution, characterized entry by entry -/

theorem naive_empty (a b : List ℚ) (h : a.length = 0 ∨ b.length = 0) :
    naive_multiply_impl a b = [] := by
  unfold naive_multiply_impl
  exact if_pos h

theorem naive_length (a b : List ℚ) (ha : a.length ≠ 0) (hb : b.length ≠ 0) :
    (naive_multiply_impl a b).length = a.length + b.length - 1 := by
  unfold naive_multiply_impl
  rw [if_neg (by tauto)]
  refine foldl_update_length _ _ ?_ _ _ (by simp)
  intro r i hr
  refine foldl_update_length _ _ ?_ _ _ hr
  intro r' j hr'
  simpa using hr'

theorem naive_getD (a b : List ℚ) (ha : a.length ≠ 0) (hb : b.length ≠ 0)
    (k : ℕ) (hk : k < a.length + b.length - 1) :
    (naive_multiply_impl a b).getD k 0 =
      ∑ i in Finset.range a.length, ∑ j in Finset.range b.length,
        (if i + j = k then a.getD i 0 * b.getD j 0 else 0) := by
  unfold naive_multiply_impl
  rw [if_neg (by tauto)]
  rw [foldl_update_getD (a.length + b.length - 1) _
      (fun i k => ∑ j in Finset.range b.length,
        if i + j = k then a.getD i 0 * b.getD j 0 else 0)
      ?_ ?_ _ _ (by simp) k hk]
  · rw [sum_map_range]
    simp
  · intro r i hr
    refine foldl_update_length _ _ ?_ _ _ hr
    intro r' j hr'
    simpa using hr'
  · intro r i k' hr hk'
    rw [foldl_update_getD (a.length + b.length - 1)
        (fun r' j => r'.set (i + j) (r'.getD (i + j) 0 + a.getD i 0 * b.getD j 0))
        (fun j k'' => if i + j = k'' then a.getD i 0 * b.getD j 0 else 0)
        ?_ ?_ _ _ hr k' hk', sum_map_range]
    · intro r' j hr'
      simpa using hr'
    · intro r' j k'' hr' hk''
      exact getD_set_add r' (i + j) k'' _ (by omega)

theorem naive_last (a b : List ℚ) (ha : a.length ≠ 0) (hb : b.length ≠ 0) :
    (naive_multiply_impl a b).getD (a.length + b.length - 2) 0 =
      a.getD (a.length - 1) 0 * b.getD (b.length - 1) 0 := by
  rw [naive_getD a b ha hb _ (by omega)]
  rw [Finset.sum_eq_single (a.length - 1)]
  · rw [Finset.sum_eq_single (b.length - 1)]
    · rw [if_pos (by omega)]
    · intro j hj hne
      have h2 := Finset.mem_range.1 hj
      rw [if_neg (by omega)]
    · intro hmem
      exact absurd (Finset.mem_range.2 (by omega)) hmem
  · intro i hi hne
    refine Finset.sum_eq_zero ?_
    intro j hj
    have h1 := Finset.mem_range.1 hi
    have h2 := Finset.mem_range.1 hj
    rw [if_neg (by omega)]
  · intro hmem
    exact absurd (Finset.mem_range.2 (by omega)) hmem

/-! ## The trailing-coefficient normalization -/

theorem head_dropWhile_false (p : ℚ → Bool) :
    ∀ (l : List ℚ), ∀ x ∈ (l.dropWhile p).head?, p x = false := by
  intro l
  induction l with
  | nil => simp
  | cons a l ih =>
      intro x hx
      rw [List.dropWhile_cons] at hx
      by_cases h : p a = true
      · rw [if_pos h] at hx
        exact ih x hx
      · rw [if_neg h] at hx
        simp only [List.head?_cons, Option.mem_def, Option.some.injEq] at hx
        subst hx
        simpa using h

theorem trimmed_stripTrailing (l : List ℚ) : trimmed (stripTrailing l) := by
  intro x hx
  unfold stripTrailing at hx
  rw [List.getLast?_reverse] at hx
  have h := head_dropWhile_false _ l.reverse x hx
  simp only [decide_eq_false_iff_not, not_lt] at h
  exact h

theorem stripTrailing_all_zero (l : List ℚ) (h : ∀ x ∈ l, x = 0) :
    stripTrailing l = [] := by
  have h0 : l.reverse.dropWhile (fun x => |x| < eps) = [] := by
    rw [List.dropWhile_eq_nil_iff]
    intro x hx
    have hx0 := h x (List.mem_reverse.1 hx)
    subst hx0
    simp only [abs_zero, decide_eq_true_eq, eps]
    norm_num
  unfold stripTrailing
  rw [h0, List.reverse_nil]

theorem stripTrailing_of_getLast (l : List ℚ) (x : ℚ) (hx : l.getLast? = some x)
    (h : eps ≤ |x|) : stripTrailing l = l := by
  have hhead : l.reverse.head? = some x := by rw [List.head?_reverse]; exact hx
  obtain ⟨ys, hrev⟩ : ∃ ys, l.reverse = x :: ys := by
    cases hr : l.reverse with
    | nil => rw [hr] at hhead; simp at hhead
    | cons y ys =>
        rw [hr] at hhead
        simp only [List.head?_cons, Option.some.injEq] at hhead
        exact ⟨ys, by rw [hhead]⟩
  unfold stripTrailing
  rw [hrev, List.dropWhile_cons,
    if_neg (by simp only [decide_eq_true_eq]; exact not_lt.2 h), ← hrev,
    List.reverse_reverse]

theorem new_coeffs (coeffs : List ℚ) :
    (Polynomial.new coeffs).coeffs = stripTrailing coeffs := rfl

/-! ## Chunking reads only the first `3 * n_chunk` coefficients -/

theorem chunkOf_congr (b bT : List ℚ) (csize off : ℕ) (hlen : bT.length = b.length)
    (h : ∀ i < off + csize, bT.getD i 0 = b.getD i 0) :
    chunkOf bT csize off = chunkOf b csize off := by
  unfold chunkOf
  refine List.map_congr_left ?_
  intro i hi
  have hi' := List.mem_range.1 hi
  rw [hlen]
  by_cases hc : i < min csize (b.length - off)
  · rw [if_pos hc, if_pos hc]
    exact h (off + i) (by omega)
  · rw [if_neg hc, if_neg hc]

theorem getLast?_eq_getD (l : List ℚ) (h : l ≠ []) :
    l.getLast? = some (l.getD (l.length - 1) 0) := by
  have hpos : 0 < l.length := List.length_pos.2 h
  rw [List.getLast?_eq_getElem?, List.getElem?_eq_getElem (by omega)]
  exact congrArg some (List.getD_eq_getElem _ _ (by omega)).symm

theorem degree_eq (p : Polynomial) (h : p.coeffs ≠ []) :
    p.degree = p.coeffs.length - 1 := by
  unfold Polynomial.degree
  rw [if_neg (by simpa using h)]

/-! ## The claims -/

unseal Rat.add Rat.mul Rat.inv Rat.sub in
/-- Claim C1 (status: code_bug).  The spec claims `multiplyThresholded(a,b,t)`
equals `multiplyNaive(a,b)` after normalization for all inputs and every
`t ≥ 1`.  The code violates this: already for `a = b = [1,0,0,0,0]` (the
constant polynomial 1, zero-padded to length 5 so the recursive branch fires)
and `t = 1` the interpolation step (lines 212-216) produces
`[1,0,-1,0,-1/3,0,0,0,1/24]` instead of the true product `1`; the normalized
results differ. -/
theorem thresholded_deviates_from_naive :
    thresholded_multiply_impl [1, 0, 0, 0, 0] [1, 0, 0, 0, 0] 1 =
        [1, 0, -1, 0, -(1 : ℚ)/3, 0, 0, 0, 1/24] ∧
    naive_multiply_impl [1, 0, 0, 0, 0] [1, 0, 0, 0, 0] =
        [1, 0, 0, 0, 0, 0, 0, 0, 0] ∧
    Polynomial.new (thresholded_multiply_impl [1, 0, 0, 0, 0] [1, 0, 0, 0, 0] 1) ≠
      Polynomial.new (naive_multiply_impl [1, 0, 0, 0, 0] [1, 0, 0, 0, 0]) := by
  have h : thresholded_multiply_impl [1, 0, 0, 0, 0] [1, 0, 0, 0, 0] 1 =
      [1, 0, -1, 0, -(1 : ℚ)/3, 0, 0, 0, 1/24] := by
    rw [thresh_unfold_base _ _ _ (by decide) (by decide)]
    decide
  refine ⟨h, by decide, ?_⟩
  rw [h]
  decide

/-- Claim C2 (status: code_bug).  The spec claims the closed-form coefficients
`c0..c4` computed at lines 212-216 are the unique degree-4 interpolant of the
five values at the points `{0,1,-1,2,-2}`.  They are not: for the constant
values `p0 = … = p4 = 1` the code computes `(1, -1, -1/3, 0, 1/24)` (the true
interpolant is `(1,0,0,0,0)`), and evaluating the computed coefficients at the
point `1` yields `-7/24 ≠ 1`. -/
theorem interp_formulas_do_not_interpolate :
    interpC0 1 = 1 ∧
    interpC1 1 1 1 1 1 = -1 ∧
    interpC2 1 1 1 1 1 = -(1/3) ∧
    interpC3 1 1 1 1 = 0 ∧
    interpC4 1 1 1 1 1 = 1/24 ∧
    interpC0 1 + interpC1 1 1 1 1 1 * 1 + interpC2 1 1 1 1 1 * 1 ^ 2 +
        interpC3 1 1 1 1 * 1 ^ 3 + interpC4 1 1 1 1 1 * 1 ^ 4 ≠ (1 : ℚ) := by
  norm_num [interpC0, interpC1, interpC2, interpC3, interpC4]

/-- Claim C3 (status: confirmed).  For every threshold `t ≤ 5` the kernel
behaves exactly like `cook_tooms_k3_impl`, and `multiply_cook_tooms_k3` is the
kernel instantiated at threshold 5. -/
theorem thresholded_eq_cook_tooms_of_le_five :
    (∀ (a b : List ℚ) (t : ℕ), t ≤ 5 →
      thresholded_multiply_impl a b t = cook_tooms_k3_impl a b) ∧
    (∀ p q : Polynomial, p.multiply_cook_tooms_k3 q =
      Polynomial.new (thresholded_multiply_impl p.coeffs q.coeffs 5)) :=
  ⟨fun a b t ht => thresh_congr a b t 5 (by omega), fun _ _ => rfl⟩

/-- Witness for C3 at `t = 3`. -/
theorem thresholded_eq_cook_tooms_witness :
    thresholded_multiply_impl [1, 2, 3, 4, 5] [6, 7, 8, 9, 10] 3 =
      cook_tooms_k3_impl [1, 2, 3, 4, 5] [6, 7, 8, 9, 10] :=
  thresholded_eq_cook_tooms_of_le_five.1 [1, 2, 3, 4, 5] [6, 7, 8, 9, 10] 3 (by omega)

/-- Claim C4 (status: confirmed).  `naive_multiply_impl` returns `[]` when an
operand is empty and otherwise the length-`n+m-1` convolution
`output[k] = Σ_{i+j=k} a[i]·b[j]`. -/
theorem naive_multiply_spec :
    ∀ (a b : List ℚ),
      ((a.length = 0 ∨ b.length = 0) → naive_multiply_impl a b = []) ∧
      (a.length ≠ 0 → b.length ≠ 0 →
        (naive_multiply_impl a b).length = a.length + b.length - 1 ∧
        ∀ k < a.length + b.length - 1,
          (naive_multiply_impl a b).getD k 0 =
            ∑ ij in (Finset.range a.length ×ˢ Finset.range b.length).filter
                (fun ij => ij.1 + ij.2 = k),
              a.getD ij.1 0 * b.getD ij.2 0) := by
  intro a b
  refine ⟨naive_empty a b, fun ha hb => ⟨naive_length a b ha hb, ?_⟩⟩
  intro k hk
  rw [naive_getD a b ha hb k hk, Finset.sum_filter, Finset.sum_product]

/-- Witness for C4: an empty operand, and a nonempty product length. -/
theorem naive_multiply_spec_witness :
    naive_multiply_impl ([] : List ℚ) [1, 2] = [] ∧
    (naive_multiply_impl [1, 2] [3]).length = 2 :=
  ⟨(naive_multiply_spec [] [1, 2]).1 (Or.inl rfl),
   ((naive_multiply_spec [1, 2] [3]).2 (by simp) (by simp)).1⟩

/-- Claim C5 (status: confirmed).  If either operand is shorter than the
clamped threshold `max t 5`, the kernel returns exactly the direct
convolution. -/
theorem thresholded_base_case :
    ∀ (a b : List ℚ) (t : ℕ),
      a.length < max t 5 ∨ b.length < max t 5 →
      thresholded_multiply_impl a b t = naive_multiply_impl a b :=
  thresh_base

/-- Witness for C5. -/
theorem thresholded_base_case_witness :
    thresholded_multiply_impl [1, 1] [2, 2] 7 = naive_multiply_impl [1, 1] [2, 2] :=
  thresholded_base_case [1, 1] [2, 2] 7 (Or.inl (by decide))

/-- Claim C6 (status: confirmed).  Every polynomial produced by construction,
random sampling, or any of the three multiplications has no trailing
coefficient of magnitude below `eps`, and an all-zero input normalizes to the
empty sequence. -/
theorem normalization_invariant :
    (∀ coeffs, trimmed (Polynomial.new coeffs).coeffs) ∧
    (∀ (range_min range_max : ℚ) (size : ℕ) (sample : ℕ → ℚ) (p : Polynomial),
      Polynomial.random range_min range_max size sample = some p → trimmed p.coeffs) ∧
    (∀ p q : Polynomial, trimmed (p.multiply_naive q).coeffs) ∧
    (∀ p q : Polynomial, trimmed (p.multiply_cook_tooms_k3 q).coeffs) ∧
    (∀ (p q : Polynomial) (t : ℕ), trimmed (p.multiply_thresholded q t).coeffs) ∧
    (∀ coeffs, (∀ x ∈ coeffs, x = 0) → (Polynomial.new coeffs).coeffs = []) := by
  refine ⟨fun c => trimmed_stripTrailing c, ?_,
    fun p q => trimmed_stripTrailing _, fun p q => trimmed_stripTrailing _,
    fun p q t => trimmed_stripTrailing _,
    fun c h => by rw [new_coeffs, stripTrailing_all_zero c h]⟩
  intro mn mx sz smp p hp
  unfold Polynomial.random at hp
  split at hp
  · split at hp
    · injection hp with h
      subst h
      exact trimmed_stripTrailing _
    · exact absurd hp (by simp)
  · exact absurd hp (by simp)

unseal Rat.add Rat.mul Rat.inv Rat.sub in
/-- Witness for C6: a successful random draw is trimmed, and an all-zero input
normalizes to `[]`. -/
theorem normalization_invariant_witness :
    trimmed (Polynomial.new [(1 : ℚ), 1]).coeffs ∧
    (Polynomial.new [(0 : ℚ), 0]).coeffs = [] :=
  ⟨normalization_invariant.2.1 0 1 2 (fun _ => 1) (Polynomial.new [1, 1]) (by decide),
   normalization_invariant.2.2.2.2.2 [0, 0] (by decide)⟩

/-- Claim C7 (status: corrected).  The two `Polynomial::random` preconditions
do abort (modelled by `none`), but a threshold of zero is NOT a fatal
precondition: `thresholded_multiply_impl` has no assertion and simply clamps
the threshold to 5. -/
theorem preconditions_fatal_amended :
    (∀ (range_min range_max : ℚ) (sample : ℕ → ℚ),
      Polynomial.random range_min range_max 0 sample = none) ∧
    (∀ (range_min range_max : ℚ) (size : ℕ) (sample : ℕ → ℚ),
      ¬(range_min < range_max) → Polynomial.random range_min range_max size sample = none) ∧
    (∀ a b : List ℚ, thresholded_multiply_impl a b 0 = thresholded_multiply_impl a b 5) :=
  ⟨fun mn mx s => by unfold Polynomial.random; simp,
   fun mn mx sz s h => by unfold Polynomial.random; simp [h],
   fun a b => thresh_congr a b 0 5 (by decide)⟩

unseal Rat.add Rat.mul Rat.inv Rat.sub in
/-- Counterexample for C7's threshold clause: a threshold-0 call returns a
value (the naive product) instead of failing. -/
theorem threshold_zero_returns :
    thresholded_multiply_impl [1, 2, 3] [4, 5, 6] 0 = [4, 13, 28, 27, 18] := by
  rw [thresh_base _ _ _ (Or.inl (by decide))]
  decide

/-- Witness for C7. -/
theorem preconditions_fatal_witness :
    Polynomial.random 5 3 7 (fun _ => 0) = none ∧
    Polynomial.random 0 1 0 (fun _ => 0) = none :=
  ⟨preconditions_fatal_amended.2.1 5 3 7 (fun _ => 0) (by norm_num),
   preconditions_fatal_amended.1 0 1 (fun _ => 0)⟩

unseal Rat.add Rat.mul Rat.inv Rat.sub in
/-- Counterexample for C8: the nonzero polynomial `1 + 1e-12·x` multiplied by
itself loses its top coefficient (`1e-24 < 1e-12`) to normalization, so the
degrees do not add. -/
theorem degree_law_fails :
    (Polynomial.new [1, 1/10^12]).coeffs ≠ [] ∧
    ((Polynomial.new [1, 1/10^12]).multiply_naive (Polynomial.new [1, 1/10^12])).degree ≠
      (Polynomial.new [1, 1/10^12]).degree + (Polynomial.new [1, 1/10^12]).degree := by
  decide

/-- Claim C8 (status: corrected).  The degree law
`degree (a*b) = degree a + degree b` for nonzero operands holds as soon as the
product of the two leading coefficients survives the `eps` cutoff (in
particular whenever `|lead a · lead b| ≥ 1e-12`); without that proviso it
fails, see `degree_law_fails`. -/
theorem degree_law_amended :
    ∀ (p q : Polynomial) (x y : ℚ),
      p.coeffs.getLast? = some x → q.coeffs.getLast? = some y → eps ≤ |x * y| →
      (p.multiply_naive q).degree = p.degree + q.degree := by
  intro p q x y hx hy hxy
  have hp' : p.coeffs ≠ [] := by
    intro h0
    rw [h0] at hx
    simp at hx
  have hq' : q.coeffs ≠ [] := by
    intro h0
    rw [h0] at hy
    simp at hy
  have ha : p.coeffs.length ≠ 0 := by simpa using hp'
  have hb : q.coeffs.length ≠ 0 := by simpa using hq'
  have hn : p.coeffs.getD (p.coeffs.length - 1) 0 = x := by
    rw [getLast?_eq_getD _ hp'] at hx
    exact Option.some.inj hx
  have hm : q.coeffs.getD (q.coeffs.length - 1) 0 = y := by
    rw [getLast?_eq_getD _ hq'] at hy
    exact Option.some.inj hy
  have hprod : (naive_multiply_impl p.coeffs q.coeffs).getD
      (p.coeffs.length + q.coeffs.length - 2) 0 = x * y := by
    rw [naive_last _ _ ha hb, hn, hm]
  have hlen := naive_length p.coeffs q.coeffs ha hb
  have hne : naive_multiply_impl p.coeffs q.coeffs ≠ [] := by
    intro h0
    rw [h0] at hlen
    simp at hlen
    omega
  have hlast : (naive_multiply_impl p.coeffs q.coeffs).getLast? = some (x * y) := by
    rw [getLast?_eq_getD _ hne, hlen]
    have hidx : p.coeffs.length + q.coeffs.length - 1 - 1 =
        p.coeffs.length + q.coeffs.length - 2 := by omega
    rw [hidx, hprod]
  have hcoeffs : (p.multiply_naive q).coeffs = naive_multiply_impl p.coeffs q.coeffs :=
    stripTrailing_of_getLast _ _ hlast hxy
  rw [degree_eq p hp', degree_eq q hq',
    degree_eq _ (by rw [hcoeffs]; exact hne), hcoeffs, hlen]
  omega

unseal Rat.add Rat.mul Rat.inv Rat.sub in
/-- Witness for C8. -/
theorem degree_law_amended_witness :
    ((Polynomial.new [1, 1]).multiply_naive (Polynomial.new [1, 1])).degree =
      (Polynomial.new [1, 1]).degree + (Polynomial.new [1, 1]).degree :=
  degree_law_amended _ _ 1 1 (by decide) (by decide) (by decide)

/-- Claim C9 (status: confirmed).  In the recursive branch, operand `b` is
split with the chunk size `⌈n/3⌉` computed from `a`'s length alone, and
coefficients `b[3·⌈n/3⌉..]` are never read: replacing them by any other
values (keeping the length) leaves the result unchanged. -/
theorem b_tail_never_read :
    ∀ (a b bT : List ℚ) (t : ℕ),
      ¬(a.length < max t 5 ∨ b.length < max t 5) →
      bT.length = b.length →
      (∀ i < 3 * ((a.length + 2) / 3), bT.getD i 0 = b.getD i 0) →
      thresholded_multiply_impl a b t = thresholded_multiply_impl a bT t := by
  intro a b bT t h hlen hagree
  have hT : ¬(a.length < max t 5 ∨ bT.length < max t 5) := by
    rw [hlen]
    exact h
  rw [thresh_step a b t h, thresh_step a bT t hT]
  have c0 : chunkOf bT ((a.length + 2) / 3) 0 = chunkOf b ((a.length + 2) / 3) 0 :=
    chunkOf_congr _ _ _ _ hlen (fun i hi => hagree i (by omega))
  have c1 : chunkOf bT ((a.length + 2) / 3) ((a.length + 2) / 3) =
      chunkOf b ((a.length + 2) / 3) ((a.length + 2) / 3) :=
    chunkOf_congr _ _ _ _ hlen (fun i hi => hagree i (by omega))
  have c2 : chunkOf bT ((a.length + 2) / 3) (2 * ((a.length + 2) / 3)) =
      chunkOf b ((a.length + 2) / 3) (2 * ((a.length + 2) / 3)) :=
    chunkOf_congr _ _ _ _ hlen (fun i hi => hagree i (by omega))
  rw [c0, c1, c2, hlen]

unseal Rat.add Rat.mul Rat.inv Rat.sub in
/-- Witness for C9: two runs differing only in `b[6]`. -/
theorem b_tail_never_read_witness :
    thresholded_multiply_impl [1, 1, 1, 1, 1] [1, 1, 1, 1, 1, 1, 5] 0 =
      thresholded_multiply_impl [1, 1, 1, 1, 1] [1, 1, 1, 1, 1, 1, 9] 0 :=
  b_tail_never_read [1, 1, 1, 1, 1] [1, 1, 1, 1, 1, 1, 5] [1, 1, 1, 1, 1, 1, 9] 0
    (by decide) (by decide) (by decide)

/-- Claim C10 (status: confirmed).  The kernel is total; in the recursive
branch `n ≥ 5` and the measure `⌈n/3⌉` strictly decreases, and every operand
of the five recursive calls (chunks and evaluated vectors) has length exactly
`⌈n/3⌉`. -/
theorem kernel_terminates_measure :
    ∀ (a b : List ℚ) (t : ℕ),
      (∃ r, thresholded_multiply_impl a b t = r) ∧
      (¬(a.length < max t 5 ∨ b.length < max t 5) →
        5 ≤ a.length ∧ (a.length + 2) / 3 < a.length) ∧
      (∀ csize off, (chunkOf a csize off).length = csize) ∧
      (∀ (x0 x1 x2 : List ℚ) (csize : ℕ), (evalAt1 x0 x1 x2 csize).length = csize ∧
        (evalAtNeg1 x0 x1 x2 csize).length = csize ∧
        (evalAt2 x0 x1 x2 csize).length = csize ∧
        (evalAtNeg2 x0 x1 x2 csize).length = csize) := by
  intro a b t
  refine ⟨⟨_, rfl⟩, fun h => ⟨by omega, by omega⟩,
    fun csize off => chunkOf_length a csize off,
    fun x0 x1 x2 csize => ⟨evalAt1_length x0 x1 x2 csize, evalAtNeg1_length x0 x1 x2 csize,
      evalAt2_length x0 x1 x2 csize, evalAtNeg2_length x0 x1 x2 csize⟩⟩

/-- Witness for C10. -/
theorem kernel_terminates_measure_witness :
    5 ≤ ([(1 : ℚ), 1, 1, 1, 1] : List ℚ).length ∧
    (([(1 : ℚ), 1, 1, 1, 1] : List ℚ).length + 2) / 3 <
      ([(1 : ℚ), 1, 1, 1, 1] : List ℚ).length :=
  (kernel_terminates_measure [1, 1, 1, 1, 1] [1, 1, 1, 1, 1] 0).2.1 (by decide)

end PolyMult
